import Mathlib

/-!
# Verification of the PII Aadhaar/mobile masking core

Shallow embedding of the validation, categorization and masking engine of
the repository (files `base.py`, `ind_aadhaar.py`, `phone.py`, `app.py`).
Python strings are modelled as `List Char`; Python `int(ch)` on a digit
character as `Char.toNat - 48`; `None`/NaN inputs reach the normalizer as
the empty string, so string inputs suffice for the claims below.
Whitespace (`str.split()`, `str.strip()`) is modelled by
`Char.isWhitespace`, which covers the ASCII whitespace involved in every
claim.
-/

namespace PII

/-! ## Python string primitives -/

/-- Value of a digit character, as in Python `int(ch)` / `ord(ch) - 48`. -/
def charVal (c : Char) : Nat := c.toNat - 48

/-- Python `str.lower()` (ASCII case fold suffices for the claims). -/
def pyLower (s : List Char) : List Char := s.map Char.toLower

/-- Python `str.strip()`: remove leading and trailing whitespace. -/
def pyStrip (s : List Char) : List Char :=
  ((s.dropWhile Char.isWhitespace).reverse.dropWhile Char.isWhitespace).reverse

/-- Worker for `pySplit`: `acc` holds the current word, reversed. -/
def pySplitAux : List Char → List Char → List (List Char)
  | acc, [] => if acc = [] then [] else [acc.reverse]
  | acc, c :: rest =>
      if c.isWhitespace then
        if acc = [] then pySplitAux [] rest else acc.reverse :: pySplitAux [] rest
      else pySplitAux (c :: acc) rest

/-- Python `str.split()` with no arguments: split on runs of whitespace,
discarding empty pieces. -/
def pySplit (s : List Char) : List (List Char) := pySplitAux [] s

/-- Python `" ".join(ws)`. -/
def joinSpace (ws : List (List Char)) : List Char := List.intercalate [' '] ws

/-! ## `base.py`: normalization -/

/-- `normalize_text` from `base.py`: empty-like and `"nan"` markers map to
`""`; otherwise trim and collapse internal whitespace
(`" ".join(s.split()).strip()`). -/
def normalize_text (s : List Char) : List Char :=
  if pyStrip s = [] ∨ pyLower s = "nan".toList then []
  else pyStrip (joinSpace (pySplit s))

/-- `normalize_digits` from `base.py`: normalize, then keep digits only
(`re.sub(r"\D+", "", s)`). -/
def normalize_digits (s : List Char) : List Char :=
  let t := normalize_text s
  if t = [] then [] else t.filter Char.isDigit

/-! ## `ind_aadhaar.py`: Verhoeff tables and checksum -/

/-- Verhoeff multiplication table `_d`. -/
def vd : List (List Nat) :=
  [[0,1,2,3,4,5,6,7,8,9],
   [1,2,3,4,0,6,7,8,9,5],
   [2,3,4,0,1,7,8,9,5,6],
   [3,4,0,1,2,8,9,5,6,7],
   [4,0,1,2,3,9,5,6,7,8],
   [5,9,8,7,6,0,4,3,2,1],
   [6,5,9,8,7,1,0,4,3,2],
   [7,6,5,9,8,2,1,0,4,3],
   [8,7,6,5,9,3,2,1,0,4],
   [9,8,7,6,5,4,3,2,1,0]]

/-- Verhoeff permutation table `_p`. -/
def vp : List (List Nat) :=
  [[0,1,2,3,4,5,6,7,8,9],
   [1,5,7,6,2,8,3,0,9,4],
   [5,8,0,3,7,9,6,1,4,2],
   [8,9,1,6,0,4,3,5,2,7],
   [9,4,5,3,1,2,6,8,7,0],
   [4,2,8,6,5,7,3,9,0,1],
   [2,7,9,3,8,0,6,4,1,5],
   [7,0,4,6,9,1,3,2,5,8]]

/-- Verhoeff inverse table `_inv`. -/
def vinv : List Nat := [0,4,3,2,1,5,6,7,8,9]

/-- `_d[a][b]`. -/
def dOp (a b : Nat) : Nat := (vd.getD a []).getD b 0

/-- `_p[j][b]`. -/
def pOp (j b : Nat) : Nat := (vp.getD j []).getD b 0

/-- `_inv[c]`. -/
def invOp (c : Nat) : Nat := vinv.getD c 0

/-- The shared loop of both Verhoeff functions: starting at position `i`
with accumulator `c`, fold `c = _d[c][_p[i % 8][digit]]` over the digits. -/
def verhoeffLoop : Nat → Nat → List Nat → Nat
  | _, c, [] => c
  | i, c, d :: rest => verhoeffLoop (i + 1) (dOp c (pOp (i % 8) d)) rest

/-- `verhoeff_check_digit` from `ind_aadhaar.py`, on the digit values of
the numeric string: run the recurrence over the reversed digits with
permutation index `(i+1) % 8`, then invert. -/
def verhoeff_check_digit (body : List Nat) : Nat :=
  invOp (verhoeffLoop 1 0 body.reverse)

/-- `verhoeff_validate` from `ind_aadhaar.py`, on digit values: run the
recurrence over the reversed digits with permutation index `i % 8` and
accept iff the accumulator ends at `0`. -/
def verhoeff_validate (number : List Nat) : Bool :=
  verhoeffLoop 0 0 number.reverse == 0

/-! ## `ind_aadhaar.py`: single-value validation and masking -/

/-- Python `str.isdigit()`: nonempty and every character a digit. -/
def pyIsdigit (s : List Char) : Bool := !s.isEmpty && s.all Char.isDigit

/-- `verhoeff_validate` applied to a digit string, converting each
character with `int(ch)`. -/
def verhoeff_validate_str (s : List Char) : Bool :=
  verhoeff_validate (s.map charVal)

/-- Result record of `validate_single` in `ind_aadhaar.py`. -/
structure AOut where
  aadhaar : List Char
  valid : Bool
  reason : String
deriving DecidableEq

/-- `validate_single` from `ind_aadhaar.py`: normalize to digits, then
first matching reason among `MISSING`, `NON_NUMERIC`, `LENGTH_NEQ_12`,
`CHECKSUM_FAIL`; otherwise valid. -/
def validate_single (x : List Char) : AOut :=
  let digits := normalize_digits x
  if digits = [] then ⟨digits, false, "MISSING"⟩
  else if !pyIsdigit digits then ⟨digits, false, "NON_NUMERIC"⟩
  else if digits.length ≠ 12 then ⟨digits, false, "LENGTH_NEQ_12"⟩
  else if !verhoeff_validate_str digits then ⟨digits, false, "CHECKSUM_FAIL"⟩
  else ⟨digits, true, ""⟩

/-- Python format `f"XXXX-XXXX-{last4:>4}"` pads `last4` on the LEFT with
spaces to width 4 (right alignment). -/
def alignRight4 (l : List Char) : List Char :=
  List.replicate (4 - l.length) ' ' ++ l

/-- `mask_aadhaar` from `ind_aadhaar.py`. -/
def mask_aadhaar (a12 : List Char) : List Char :=
  let digits := normalize_digits a12
  if digits = [] then []
  else
    let last4 :=
      if 4 ≤ digits.length then digits.drop (digits.length - 4) else digits
    "XXXX-XXXX-".toList ++ alignRight4 last4

/-! ## `phone.py`: E.164 masking -/

/-- Match of `E164_RE = ^\+(\d{1,3})(\d{3})(\d{3})(\d+)$`: the candidate
must be `'+'` followed by at least `8` digits, optionally closed by one
trailing newline (Python's `$` also matches just before a single final
`'\n'`, which no group captures); the greedy country-code group takes
`min 3 (n - 7)` of the digits and the final group takes everything after
the next two groups of three. -/
def e164Match (s : List Char) :
    Option (List Char × List Char × List Char × List Char) :=
  match s with
  | '+' :: ds =>
      let core := if ds.getLast? = some '\n' then ds.dropLast else ds
      if core.all Char.isDigit ∧ 8 ≤ core.length then
        let cclen := min 3 (core.length - 7)
        some (core.take cclen, (core.drop cclen).take 3,
          ((core.drop cclen).drop 3).take 3, core.drop (cclen + 6))
      else none
  | _ => none

/-- Python `digits[-4:] if len(digits) >= 4 else digits`. -/
def pyLast4 (l : List Char) : List Char :=
  if 4 ≤ l.length then l.drop (l.length - 4) else l

/-- `mask_e164` from `phone.py`: canonical numbers mask as
`+CC-XXX-XXX-last4`; otherwise keep a digit country-code slice after the
`'+'` if present; inputs that are empty or lack a leading `'+'` give
`""`. -/
def mask_e164 (s : List Char) : List Char :=
  if s = [] ∨ s.head? ≠ some '+' then []
  else
    match e164Match s with
    | some (cc, _, _, rest) =>
        ['+'] ++ cc ++ "-XXX-XXX-".toList ++ pyLast4 rest
    | none =>
        let slice := (s.drop 1).take 3
        let cc := if slice ≠ [] ∧ slice.all Char.isDigit then slice else []
        let digits := s.filter Char.isDigit
        if cc ≠ [] then
          ['+'] ++ cc ++ "-****-****-".toList ++ pyLast4 digits
        else "***-***-".toList ++ pyLast4 digits

/-! ## `app.py`: batch pipeline -/

/-- One raw input row: the Aadhaar and mobile cells. -/
structure InRow where
  araw : List Char
  mraw : List Char

/-- One processed row of the working frame. -/
structure WRow where
  araw : List Char
  mraw : List Char
  aclean : List Char
  avalid : Bool
  e164 : List Char
  mvalid : Bool
deriving DecidableEq

/-- Row kept iff some field is nonempty after text cleaning
(`keep_mask` in `app.py`, lines 187-193). -/
def keepRow (r : InRow) : Bool :=
  !(normalize_text r.araw).isEmpty || !(normalize_text r.mraw).isEmpty

/-- Per-row validation: Aadhaar via `validate_single`; the mobile side
delegates to the external `phonenumbers` collaborator, abstracted as a
function from the raw cell to the canonical E.164 string (`""` when not
valid) and the validity flag. -/
def buildRow (phoneFn : List Char → List Char × Bool) (r : InRow) : WRow :=
  let a := validate_single r.araw
  let m := phoneFn r.mraw
  ⟨r.araw, r.mraw, a.aadhaar, a.valid, m.1, m.2⟩

/-- Deduplication modes of the sidebar selector. -/
inductive DedupMode
  | nodedup
  | aadhaar
  | mobile
  | aadhaarMobile
deriving DecidableEq

/-- Worker for `drop_duplicates(subset=…)` with keep-first semantics:
drop any row whose key was already seen. -/
def dedupAux {κ : Type} [DecidableEq κ] (key : WRow → κ) :
    List κ → List WRow → List WRow
  | _, [] => []
  | seen, r :: rest =>
      if key r ∈ seen then dedupAux key seen rest
      else r :: dedupAux key (key r :: seen) rest

/-- `drop_duplicates` on a key column, keeping first occurrences. -/
def dedupBy {κ : Type} [DecidableEq κ] (key : WRow → κ)
    (rows : List WRow) : List WRow := dedupAux key [] rows

/-- The dedup step of `app.py` (lines 222-229): key on the cleaned
Aadhaar, the canonical mobile, or the pair, according to the mode. -/
def dedupStep (mode : DedupMode) (rows : List WRow) : List WRow :=
  match mode with
  | .nodedup => rows
  | .aadhaar => dedupBy (fun r => r.aclean) rows
  | .mobile => dedupBy (fun r => r.e164) rows
  | .aadhaarMobile => dedupBy (fun r => (r.aclean, r.e164)) rows

/-- The reported counters of the summary block. -/
structure Stats where
  total_rows : Nat
  processed : Nat
  distinct_after : Nat
  dropped_all_empty : Nat
  dedup_applied : Nat
deriving DecidableEq

/-- The batch pipeline of `app.py`: empty-row filter, per-row validation,
deduplication, then the summary counters; `processed` and
`distinct_after` are computed AFTER the dedup step, exactly as in the
source (lines 246-248). -/
def pipeline (phoneFn : List Char → List Char × Bool) (mode : DedupMode)
    (rows : List InRow) : List WRow × Stats :=
  let kept := rows.filter keepRow
  let dropped_all_empty := rows.length - kept.length
  let w := kept.map (buildRow phoneFn)
  let dd := dedupStep mode w
  let dedup_applied := w.length - dd.length
  (dd, ⟨rows.length, dd.length, dd.length, dropped_all_empty, dedup_applied⟩)

/-- Overall row validity (`app.py` lines 232-243): presence is a nonempty
cleaned value; both present needs both valid, one present needs that one
valid. -/
def overall_valid (aclean e164 : List Char) (av mv : Bool) : Bool :=
  let ap := !aclean.isEmpty
  let mp := !e164.isEmpty
  (ap && mp && (av && mv)) || ((ap && !mp) && av) || ((mp && !ap) && mv)

/-- The claim's first-occurrence-wins specification of deduplication:
keep the head, drop every later row carrying the same key, recurse. -/
def specKeep {κ : Type} [DecidableEq κ] (key : WRow → κ) :
    List WRow → List WRow
  | [] => []
  | r :: rest =>
      r :: specKeep key (rest.filter (fun x => !(key x == key r)))
termination_by l => l.length
decreasing_by
  simp only [List.length_cons]
  exact Nat.lt_succ_of_le (List.length_filter_le _ _)

/-- A phone collaborator that validates nothing (for counterexamples). -/
def exPhoneNone : List Char → List Char × Bool := fun _ => ([], false)

/-- Two rows with the same Aadhaar value (C3 counterexample input). -/
def exRowsC3 : List InRow := [⟨"1".toList, []⟩, ⟨"1".toList, []⟩]

/-- Aadhaar-key batch `[A, B, A, C, B]` (C6 example input). -/
def exRowsC6 : List InRow :=
  [⟨"1".toList, []⟩, ⟨"2".toList, []⟩, ⟨"1".toList, []⟩,
   ⟨"3".toList, []⟩, ⟨"2".toList, []⟩]

/-- A phone collaborator giving distinct numbers to `"a"` and `"b"`. -/
def exPhoneC10 : List Char → List Char × Bool :=
  fun s => if s = "a".toList then ("+911".toList, true)
    else ("+922".toList, true)

/-- Two mobile-only rows with distinct mobiles (C10 example input). -/
def exRowsC10 : List InRow := [⟨[], "a".toList⟩, ⟨[], "b".toList⟩]

/-! ## `base.py`: sequential-run detection -/

/-- The scanning loop of `_has_sequential_run_digits` in `base.py`:
`ru`/`rd` are the current ascending/descending streak lengths and
`prevc` the previous character. Characters are valued as
`ord(ch) - 48` over the integers; a step with an out-of-range neighbour
resets both streaks and skips the threshold test. -/
def seqLoop (m : Nat) : Nat → Nat → Char → List Char → Bool
  | _, _, _, [] => false
  | ru, rd, prevc, ch :: rest =>
      let cur : Int := (ch.toNat : Int) - 48
      let prev : Int := (prevc.toNat : Int) - 48
      if 0 ≤ cur ∧ cur ≤ 9 ∧ 0 ≤ prev ∧ prev ≤ 9 then
        let ru' := if cur = prev + 1 then ru + 1 else 1
        let rd' := if cur = prev - 1 then rd + 1 else 1
        if m ≤ ru' ∨ m ≤ rd' then true else seqLoop m ru' rd' ch rest
      else seqLoop m 1 1 ch rest

/-- `_has_sequential_run_digits` from `base.py`: short inputs answer
`false`; otherwise scan from the second character with both streaks at
`1`. -/
def hasSeqRunScan (seq : List Char) (min_run : Nat) : Bool :=
  if seq.length < min_run then false
  else
    match seq with
    | [] => false
    | c :: rest => seqLoop min_run 1 1 c rest

/-- `has_sequential_digits` from `base.py`: strip every non-digit
(`re.sub(r"\D+", "", s)`), then scan the digit string. -/
def has_sequential_digits (s : List Char) (min_run : Nat) : Bool :=
  hasSeqRunScan (s.filter Char.isDigit) min_run

/-- The value-level scanning loop: `seqLoop` after replacing characters
by their digit values (total on digit strings, where the range guard
always passes). -/
def seqLoopN (m : Nat) : Nat → Nat → Nat → List Nat → Bool
  | _, _, _, [] => false
  | ru, rd, p, v :: rest =>
      let ru' := if v = p + 1 then ru + 1 else 1
      let rd' := if v + 1 = p then rd + 1 else 1
      if m ≤ ru' ∨ m ≤ rd' then true else seqLoopN m ru' rd' v rest

/-- One strictly ascending step of a run. -/
def upStep (a b : Nat) : Prop := b = a + 1

/-- One strictly descending step of a run. -/
def downStep (a b : Nat) : Prop := a = b + 1

/-- The claim's notion of a sequential run: some contiguous window of
`m` values is chained by `+1` steps throughout or by `-1` steps
throughout. -/
def hasRunN (l : List Nat) (m : Nat) : Prop :=
  ∃ i, i + m ≤ l.length ∧
    (List.Chain' upStep ((l.drop i).take m) ∨
     List.Chain' downStep ((l.drop i).take m))

/-! ## Verhoeff lemmas -/

/-- Every entry of a doubly-indexed digit table lookup is `< 10` as long
as every listed entry is, since out-of-range lookups give the default. -/
theorem getD_getD_lt (T : List (List Nat)) (hT : ∀ r ∈ T, ∀ v ∈ r, v < 10)
    (a b : Nat) : (T.getD a []).getD b 0 < 10 := by
  rcases Nat.lt_or_ge a T.length with ha | ha
  · have hrow : T.getD a [] ∈ T := by
      rw [List.getD_eq_getElem T [] ha]
      exact List.getElem_mem ha
    rcases Nat.lt_or_ge b (T.getD a []).length with hb | hb
    · have : (T.getD a []).getD b 0 ∈ T.getD a [] := by
        rw [List.getD_eq_getElem _ 0 hb]
        exact List.getElem_mem hb
      exact hT _ hrow _ this
    · rw [List.getD_eq_default _ 0 hb]; omega
  · rw [List.getD_eq_default _ [] ha]
    simp [List.getD]

theorem vd_entries_lt : ∀ r ∈ vd, ∀ v ∈ r, v < 10 := by decide

theorem vp_entries_lt : ∀ r ∈ vp, ∀ v ∈ r, v < 10 := by decide

theorem dOp_lt (a b : Nat) : dOp a b < 10 := getD_getD_lt vd vd_entries_lt a b

theorem pOp_lt (j b : Nat) : pOp j b < 10 := getD_getD_lt vp vp_entries_lt j b

theorem vinv_entries_lt : ∀ v ∈ vinv, v < 10 := by decide

theorem invOp_lt (c : Nat) : invOp c < 10 := by
  unfold invOp
  rcases Nat.lt_or_ge c vinv.length with h | h
  · rw [List.getD_eq_getElem _ 0 h]
    exact vinv_entries_lt _ (List.getElem_mem h)
  · rw [List.getD_eq_default _ 0 h]; omega

theorem verhoeffLoop_lt (l : List Nat) : ∀ i c, c < 10 →
    verhoeffLoop i c l < 10 := by
  induction l with
  | nil => intro i c h; simpa [verhoeffLoop] using h
  | cons d rest ih =>
      intro i c h
      simp only [verhoeffLoop]
      exact ih (i + 1) _ (dOp_lt _ _)

/-- The Verhoeff multiplication table is associative on digits
(it is the dihedral group of order 10). -/
theorem dOp_assoc {a b c : Nat} (ha : a < 10) (hb : b < 10) (hc : c < 10) :
    dOp (dOp a b) c = dOp a (dOp b c) := by
  have h : ∀ x y z : Fin 10,
      dOp (dOp x.val y.val) z.val = dOp x.val (dOp y.val z.val) := by decide
  exact h ⟨a, ha⟩ ⟨b, hb⟩ ⟨c, hc⟩

/-- `0` is a left identity for the Verhoeff table on digits. -/
theorem dOp_zero_left {b : Nat} (hb : b < 10) : dOp 0 b = b := by
  have h : ∀ x : Fin 10, dOp 0 x.val = x.val := by decide
  exact h ⟨b, hb⟩

/-- `0` is a right identity for the Verhoeff table on digits. -/
theorem dOp_zero_right {b : Nat} (hb : b < 10) : dOp b 0 = b := by
  have h : ∀ x : Fin 10, dOp x.val 0 = x.val := by decide
  exact h ⟨b, hb⟩

/-- Row `0` of the permutation table is the identity on digits. -/
theorem pOp_zero {b : Nat} (hb : b < 10) : pOp 0 b = b := by
  have h : ∀ x : Fin 10, pOp 0 x.val = x.val := by decide
  exact h ⟨b, hb⟩

/-- The inverse table gives left inverses for the Verhoeff table. -/
theorem dOp_invOp {c : Nat} (hc : c < 10) : dOp (invOp c) c = 0 := by
  have h : ∀ x : Fin 10, dOp (invOp x.val) x.val = 0 := by decide
  exact h ⟨c, hc⟩

/-- Running the loop from a digit accumulator `x` equals multiplying `x`
into the run from accumulator `0` (associativity of the group fold). -/
theorem verhoeffLoop_factor (l : List Nat) : ∀ i x, x < 10 →
    verhoeffLoop i x l = dOp x (verhoeffLoop i 0 l) := by
  induction l with
  | nil => intro i x hx; simp [verhoeffLoop, dOp_zero_right hx]
  | cons d rest ih =>
      intro i x hx
      simp only [verhoeffLoop]
      rw [ih (i + 1) (dOp x (pOp (i % 8) d)) (dOp_lt _ _),
          ih (i + 1) (dOp 0 (pOp (i % 8) d)) (dOp_lt _ _),
          dOp_zero_left (pOp_lt _ _),
          dOp_assoc hx (pOp_lt _ _) (verhoeffLoop_lt _ _ _ (by omega))]

/-- C1: appending the computed Verhoeff check digit to any 11-digit body
yields a 12-digit number that `verhoeff_validate` accepts. -/
theorem C1_verhoeff_check_digit_validates (body : List Nat)
    (hlen : body.length = 11) (hdig : ∀ d ∈ body, d < 10) :
    (body ++ [verhoeff_check_digit body]).length = 12 ∧
    verhoeff_validate (body ++ [verhoeff_check_digit body]) = true := by
  constructor
  · simp [hlen]
  · have hk : verhoeff_check_digit body < 10 := invOp_lt _
    have hc : verhoeffLoop 1 0 body.reverse < 10 :=
      verhoeffLoop_lt _ _ _ (by omega)
    unfold verhoeff_validate
    rw [List.reverse_append]
    simp only [List.reverse_singleton, List.singleton_append, verhoeffLoop]
    rw [Nat.zero_mod, pOp_zero hk, dOp_zero_left hk]
    show (verhoeffLoop 1 (verhoeff_check_digit body) body.reverse == 0) = true
    rw [verhoeffLoop_factor _ _ _ hk]
    unfold verhoeff_check_digit
    rw [dOp_invOp hc]
    rfl

/-- Witness for C1 at the concrete 11-digit body `23412341234`. -/
theorem C1_witness :
    ([2,3,4,1,2,3,4,1,2,3,4] ++
        [verhoeff_check_digit [2,3,4,1,2,3,4,1,2,3,4]]).length = 12 ∧
    verhoeff_validate ([2,3,4,1,2,3,4,1,2,3,4] ++
        [verhoeff_check_digit [2,3,4,1,2,3,4,1,2,3,4]]) = true :=
  C1_verhoeff_check_digit_validates [2,3,4,1,2,3,4,1,2,3,4]
    (by decide) (by decide)

/-! ## C2: the NON_NUMERIC branch -/

/-- The output of `normalize_digits` consists of digit characters only. -/
theorem normalize_digits_all_digits (x : List Char) :
    (normalize_digits x).all Char.isDigit = true := by
  unfold normalize_digits
  by_cases h : normalize_text x = []
  · simp [h]
  · simp only [h, if_neg, ite_false, List.all_eq_true]
    intro c hc
    exact (List.mem_filter.mp hc).2

/-- C2 counterexample: the input `"12a"` has nonempty normalized text with
non-digit payload, yet `validate_single` answers `LENGTH_NEQ_12`, not
`NON_NUMERIC` as the claim requires. -/
theorem C2_counterexample :
    normalize_text "12a".toList ≠ [] ∧
    ¬((normalize_text "12a".toList).all Char.isDigit = true) ∧
    (validate_single "12a".toList).reason = "LENGTH_NEQ_12" ∧
    (validate_single "12a".toList).reason ≠ "NON_NUMERIC" :=
  ⟨by decide, by decide, by decide, by decide⟩

/-- C2 (amended): `NON_NUMERIC` is unreachable, because digit-stripping
runs before the `isdigit` test; the validator judges the stripped digit
string: `MISSING` iff no digits remain, `LENGTH_NEQ_12` iff digits remain
but not exactly twelve of them. -/
theorem C2_non_numeric_unreachable (x : List Char) :
    (validate_single x).reason ≠ "NON_NUMERIC" ∧
    ((validate_single x).reason = "MISSING" ↔ normalize_digits x = []) ∧
    ((validate_single x).reason = "LENGTH_NEQ_12" ↔
      (normalize_digits x ≠ [] ∧ (normalize_digits x).length ≠ 12)) := by
  have hall := normalize_digits_all_digits x
  unfold validate_single
  by_cases h0 : normalize_digits x = []
  · simp [h0]
  · have hd : pyIsdigit (normalize_digits x) = true := by
      unfold pyIsdigit
      rw [Bool.and_eq_true, hall]
      simp [List.isEmpty_iff, h0]
    simp only [if_neg h0, hd, Bool.not_true, Bool.false_eq_true, if_false]
    by_cases h12 : (normalize_digits x).length = 12
    · simp only [h12, ne_eq, not_true_eq_false, if_false]
      by_cases hv : verhoeff_validate_str (normalize_digits x) = true
      · simp [hv, h0, h12]
      · simp [Bool.not_eq_true] at hv
        simp [hv, h0, h12]
    · simp [if_pos h12, h0, h12]

/-- C2 witness: the amended theorem applied at the input `"12a"`. -/
theorem C2_witness : (validate_single "12a".toList).reason ≠ "NON_NUMERIC" :=
  (C2_non_numeric_unreachable "12a".toList).1

/-! ## C8: Aadhaar masking -/

/-- C8 counterexample: on the two-digit input `"12"` the mask right-aligns
the digits in a width-4 field (left-padding with spaces), so the output is
neither `"XXXX-XXXX-"` followed by the digits as-is nor right-padded. -/
theorem C8_counterexample :
    mask_aadhaar "12".toList = "XXXX-XXXX-  12".toList ∧
    mask_aadhaar "12".toList ≠ "XXXX-XXXX-".toList ++ "12".toList ∧
    mask_aadhaar "12".toList ≠ "XXXX-XXXX-".toList ++ "12  ".toList :=
  ⟨by decide, by decide, by decide⟩

/-- C8 (amended): with no digits the mask is `""`; otherwise it is
`"XXXX-XXXX-"` followed by the final `min 4 n` digit characters,
left-padded with spaces to width 4; in particular
`mask_aadhaar "234123412346" = "XXXX-XXXX-2346"`. -/
theorem C8_mask_aadhaar (s : List Char) :
    (normalize_digits s = [] → mask_aadhaar s = []) ∧
    (normalize_digits s ≠ [] →
      mask_aadhaar s =
        "XXXX-XXXX-".toList ++
          (List.replicate (4 - (normalize_digits s).length) ' ' ++
            (normalize_digits s).drop ((normalize_digits s).length - 4))) ∧
    mask_aadhaar "234123412346".toList = "XXXX-XXXX-2346".toList := by
  refine ⟨?_, ?_, by decide⟩
  · intro h; simp [mask_aadhaar, h]
  · intro h
    unfold mask_aadhaar alignRight4
    simp only [if_neg h]
    by_cases h4 : 4 ≤ (normalize_digits s).length
    · simp only [if_pos h4]
      have hlen :
          ((normalize_digits s).drop
            ((normalize_digits s).length - 4)).length = 4 := by
        rw [List.length_drop]; omega
      rw [hlen]
      have hz : 4 - (normalize_digits s).length = 0 := by omega
      rw [hz]
    · simp only [if_neg h4]
      have hz : (normalize_digits s).length - 4 = 0 := by omega
      rw [hz, List.drop_zero]

/-- C8 witness: the amended theorem evaluated at the input `"12"`. -/
theorem C8_witness :
    mask_aadhaar "12".toList =
      "XXXX-XXXX-".toList ++ (List.replicate 2 ' ' ++ "12".toList) :=
  ((C8_mask_aadhaar "12".toList).2.1 (by decide)).trans (by decide)

/-! ## C5: idempotence of `normalize_text` -/

/-- Every word produced by the splitter is nonempty and whitespace-free. -/
theorem pySplitAux_words (s : List Char) : ∀ acc,
    (∀ c ∈ acc, c.isWhitespace = false) →
    ∀ w ∈ pySplitAux acc s, w ≠ [] ∧ ∀ c ∈ w, c.isWhitespace = false := by
  induction s with
  | nil =>
      intro acc hacc w hw
      by_cases h : acc = []
      · simp [pySplitAux, h] at hw
      · simp only [pySplitAux, if_neg h, List.mem_singleton] at hw
        subst hw
        refine ⟨by simpa using h, ?_⟩
        intro c hc; exact hacc c (List.mem_reverse.mp hc)
  | cons c rest ih =>
      intro acc hacc w hw
      simp only [pySplitAux] at hw
      by_cases hws : c.isWhitespace = true
      · rw [if_pos hws] at hw
        by_cases h : acc = []
        · rw [if_pos h] at hw
          exact ih [] (by simp) w hw
        · rw [if_neg h] at hw
          rcases List.mem_cons.mp hw with rfl | hw'
          · refine ⟨by simpa using h, ?_⟩
            intro d hd; exact hacc d (List.mem_reverse.mp hd)
          · exact ih [] (by simp) w hw'
      · rw [if_neg hws] at hw
        refine ih (c :: acc) ?_ w hw
        intro d hd
        rcases List.mem_cons.mp hd with rfl | hd'
        · exact Bool.eq_false_iff.mpr hws
        · exact hacc d hd'

/-- Feeding a whitespace-free word into the splitter just extends the
accumulator. -/
theorem pySplitAux_word_append (w : List Char) : ∀ acc t,
    (∀ c ∈ w, c.isWhitespace = false) →
    pySplitAux acc (w ++ t) = pySplitAux (w.reverse ++ acc) t := by
  induction w with
  | nil => intro acc t _; simp
  | cons c w' ih =>
      intro acc t hw
      have hc : c.isWhitespace = false := hw c (by simp)
      simp only [List.cons_append, pySplitAux]
      rw [if_neg (by simp [hc])]
      simp only [List.append_eq]
      rw [ih (c :: acc) t (fun d hd => hw d (List.mem_cons_of_mem _ hd))]
      congr 1
      simp

/-- Joining two or more words inserts a single space after the first. -/
theorem joinSpace_cons_cons (w w2 : List Char) (rest : List (List Char)) :
    joinSpace (w :: w2 :: rest) = w ++ ' ' :: joinSpace (w2 :: rest) := by
  simp [joinSpace, List.intercalate, List.intersperse]

/-- Joining a single word is the word itself. -/
theorem joinSpace_singleton (w : List Char) : joinSpace [w] = w := by
  simp [joinSpace, List.intercalate]

/-- A join headed by a nonempty word is nonempty. -/
theorem joinSpace_ne_nil (w : List Char) (ws : List (List Char))
    (hne : w ≠ []) : joinSpace (w :: ws) ≠ [] := by
  cases w with
  | nil => exact absurd rfl hne
  | cons a w' =>
      cases ws with
      | nil => rw [joinSpace_singleton]; simp
      | cons w2 rest => rw [joinSpace_cons_cons]; simp

/-- Splitting a space-join of nonempty whitespace-free words recovers the
words. -/
theorem pySplit_joinSpace (ws : List (List Char)) :
    (∀ w ∈ ws, w ≠ [] ∧ ∀ c ∈ w, c.isWhitespace = false) →
    pySplit (joinSpace ws) = ws := by
  induction ws with
  | nil => intro _; rfl
  | cons w ws' ih =>
      intro h
      obtain ⟨hne, hchars⟩ := h w (by simp)
      cases ws' with
      | nil =>
          rw [joinSpace_singleton]
          unfold pySplit
          rw [show w = w ++ ([] : List Char) by simp,
              pySplitAux_word_append w [] [] hchars]
          simp only [pySplitAux, List.append_nil]
          rw [if_neg (by simpa using hne)]
          simp
      | cons w2 rest =>
          rw [joinSpace_cons_cons]
          unfold pySplit
          rw [pySplitAux_word_append w [] (' ' :: joinSpace (w2 :: rest))
              hchars]
          simp only [pySplitAux, List.append_nil]
          rw [if_pos (by decide)]
          rw [if_neg (by simpa using hne)]
          have := ih (fun v hv => h v (by simp [hv]))
          unfold pySplit at this
          rw [this]
          simp

/-- A list whose first and last characters are not whitespace is fixed by
`pyStrip`. -/
theorem pyStrip_eq_self (l : List Char)
    (hh : ∀ c, l.head? = some c → c.isWhitespace = false)
    (hl : ∀ c, l.getLast? = some c → c.isWhitespace = false) :
    pyStrip l = l := by
  unfold pyStrip
  have h1 : l.dropWhile Char.isWhitespace = l := by
    cases l with
    | nil => rfl
    | cons a l' =>
        have := hh a rfl
        simp [List.dropWhile_cons, this]
  rw [h1]
  have h2 : l.reverse.dropWhile Char.isWhitespace = l.reverse := by
    cases hrev : l.reverse with
    | nil => rfl
    | cons a r' =>
        have hl' : l = r'.reverse ++ [a] := by
          rw [← List.reverse_reverse l, hrev, List.reverse_cons]
        have hlast : l.getLast? = some a := by
          rw [hl', List.getLast?_concat]
        have hws := hl a hlast
        simp [List.dropWhile_cons, hws]
  rw [h2, List.reverse_reverse]

/-- The first character of a join of good words is not whitespace. -/
theorem joinSpace_head_not_ws (ws : List (List Char))
    (h : ∀ w ∈ ws, w ≠ [] ∧ ∀ c ∈ w, c.isWhitespace = false) :
    ∀ c, (joinSpace ws).head? = some c → c.isWhitespace = false := by
  intro c hc
  cases ws with
  | nil => simp [joinSpace, List.intercalate] at hc
  | cons w ws' =>
      obtain ⟨hne, hchars⟩ := h w (by simp)
      cases w with
      | nil => exact absurd rfl hne
      | cons a w' =>
          have ha : (joinSpace ((a :: w') :: ws')).head? = some a := by
            cases ws' with
            | nil => rw [joinSpace_singleton]; rfl
            | cons w2 rest => rw [joinSpace_cons_cons]; rfl
          rw [ha] at hc
          injection hc with hac
          subst hac
          exact hchars a (by simp)

/-- The last character of a join of good words is not whitespace. -/
theorem joinSpace_getLast_not_ws (ws : List (List Char))
    (h : ∀ w ∈ ws, w ≠ [] ∧ ∀ c ∈ w, c.isWhitespace = false) :
    ∀ c, (joinSpace ws).getLast? = some c → c.isWhitespace = false := by
  induction ws with
  | nil => intro c hc; simp [joinSpace, List.intercalate] at hc
  | cons w ws' ih =>
      intro c hc
      obtain ⟨hne, hchars⟩ := h w (by simp)
      cases ws' with
      | nil =>
          rw [joinSpace_singleton] at hc
          have hcmem : c ∈ w.getLast? := by simp [hc]
          obtain ⟨hwne, rfl⟩ := List.mem_getLast?_eq_getLast hcmem
          exact hchars _ (List.getLast_mem hwne)
      | cons w2 rest =>
          rw [joinSpace_cons_cons] at hc
          rw [List.getLast?_append_cons] at hc
          have hJne : joinSpace (w2 :: rest) ≠ [] :=
            joinSpace_ne_nil w2 rest (h w2 (by simp)).1
          rw [show (' ' :: joinSpace (w2 :: rest)) =
                [' '] ++ joinSpace (w2 :: rest) by rfl,
              List.getLast?_append_of_ne_nil [' '] hJne] at hc
          exact ih (fun v hv => h v (by simp [hv])) c hc

/-- The normalizer fixes the empty string. -/
theorem normalize_text_nil : normalize_text [] = [] := by decide

/-- A string whose lowercasing is `"nan"` normalizes to `""`. -/
theorem normalize_text_of_lower_nan (y : List Char)
    (h : pyLower y = "nan".toList) : normalize_text y = [] := by
  unfold normalize_text; rw [if_pos (Or.inr h)]

/-- C5 counterexample: `" nan "` normalizes to `"nan"`, which a second
normalization collapses to `""` — `normalize_text` is not idempotent. -/
theorem C5_counterexample :
    normalize_text (normalize_text " nan ".toList) ≠
      normalize_text " nan ".toList := by decide

/-- C5 (amended): renormalizing returns the first result unchanged except
when that result is a case variant of `"nan"`, in which case renormalizing
collapses it to `""`. -/
theorem C5_normalize_text_idempotent (x : List Char) :
    normalize_text (normalize_text x) =
      (if pyLower (normalize_text x) = "nan".toList then []
       else normalize_text x) := by
  by_cases h1 : pyStrip x = [] ∨ pyLower x = "nan".toList
  · have hx : normalize_text x = [] := by
      unfold normalize_text; rw [if_pos h1]
    rw [hx, if_neg (by decide)]
    exact normalize_text_nil
  · have hx : normalize_text x = pyStrip (joinSpace (pySplit x)) := by
      unfold normalize_text; rw [if_neg h1]
    have hgood : ∀ w ∈ pySplit x, w ≠ [] ∧
        ∀ c ∈ w, c.isWhitespace = false :=
      pySplitAux_words x [] (by simp)
    cases hW : pySplit x with
    | nil =>
        have hx0 : normalize_text x = [] := by rw [hx, hW]; rfl
        rw [hx0, if_neg (by decide)]
        exact normalize_text_nil
    | cons w ws' =>
        rw [hW] at hgood
        have hstrip : pyStrip (joinSpace (w :: ws')) = joinSpace (w :: ws') :=
          pyStrip_eq_self _ (joinSpace_head_not_ws _ hgood)
            (joinSpace_getLast_not_ws _ hgood)
        have hxJ : normalize_text x = joinSpace (w :: ws') := by
          rw [hx, hW, hstrip]
        by_cases h2 : pyLower (normalize_text x) = "nan".toList
        · rw [if_pos h2]
          exact normalize_text_of_lower_nan _ h2
        · rw [if_neg h2, hxJ]
          have hne : joinSpace (w :: ws') ≠ [] :=
            joinSpace_ne_nil w ws' (hgood w (by simp)).1
          unfold normalize_text
          rw [if_neg (not_or.mpr
            ⟨by rw [hstrip]; exact hne, by rw [← hxJ]; exact h2⟩)]
          rw [pySplit_joinSpace _ hgood, hstrip]

/-- C5 witness: the amended theorem applied at `"  a   b "`, where the
normalized form is not a `"nan"` variant and idempotence holds. -/
theorem C5_witness :
    normalize_text (normalize_text "  a   b ".toList) =
      normalize_text "  a   b ".toList := by
  have h := C5_normalize_text_idempotent "  a   b ".toList
  rw [if_neg (by decide)] at h
  exact h

/-! ## C7: phone-mask fallback -/

/-- C7 counterexample: the nonempty input `"9876543210"` does not match
the canonical E.164 shape, yet its mask is `""` — not the claimed
`"***-***-3210"` or `"+CC-****-****-3210"` fallback — because inputs
without a leading `'+'` are rejected outright. Conversely,
`"+911234567\n"` is not of the shape `+<cc><3><3><rest>` either (it
carries a trailing newline), yet the regex `$` anchor tolerates that
newline and the code masks it through the CANONICAL branch as
`"+91-XXX-XXX-7"`, not with the claimed `"+911-****-****-4567"`
fallback. -/
theorem C7_counterexample :
    mask_e164 "9876543210".toList = [] ∧
    "9876543210".toList ≠ [] ∧
    e164Match "9876543210".toList = none ∧
    mask_e164 "9876543210".toList ≠ "***-***-3210".toList ∧
    mask_e164 "9876543210".toList ≠ "+987-****-****-3210".toList ∧
    mask_e164 "+911234567\n".toList = "+91-XXX-XXX-7".toList ∧
    mask_e164 "+911234567\n".toList ≠ "+911-****-****-4567".toList :=
  ⟨by decide, by decide, by decide, by decide, by decide, by decide,
    by decide⟩

/-- C7 (amended): masking is total; the empty string and any input
lacking a leading `'+'` mask to `""`; an input starting with `'+'` that
does not match the canonical shape falls back to `+CC-****-****-last4`
when the up-to-three characters after the `'+'` are digits, and to
`***-***-last4` otherwise, `last4` being the trailing digit characters. -/
theorem C7_mask_e164_fallback (s : List Char) :
    (s = [] → mask_e164 s = []) ∧
    (∀ c cs, s = c :: cs → c ≠ '+' → mask_e164 s = []) ∧
    (∀ ds, s = '+' :: ds → e164Match s = none →
      mask_e164 s =
        (if ds.take 3 ≠ [] ∧ (ds.take 3).all Char.isDigit then
          ['+'] ++ ds.take 3 ++ "-****-****-".toList ++
            pyLast4 (s.filter Char.isDigit)
        else "***-***-".toList ++ pyLast4 (s.filter Char.isDigit))) := by
  refine ⟨?_, ?_, ?_⟩
  · intro h; subst h; decide
  · intro c cs h hc; subst h
    unfold mask_e164
    rw [if_pos (Or.inr (by simp [hc]))]
  · intro ds h hm; subst h
    unfold mask_e164
    rw [if_neg (by simp)]
    rw [hm]
    dsimp only
    simp only [List.drop_one, List.tail_cons]
    by_cases hQ : (List.take 3 ds ≠ [] ∧
        (List.take 3 ds).all Char.isDigit = true)
    · rw [if_pos hQ, if_pos hQ, if_pos hQ.1]
    · rw [if_neg hQ, if_neg hQ, if_neg (by simp)]

/-- C7 witness: the amended theorem applied at `"+12ab34567"`, whose
first post-plus slice is not all digits, giving the generic fallback. -/
theorem C7_witness :
    mask_e164 "+12ab34567".toList =
      "***-***-".toList ++ pyLast4 ("+12ab34567".toList.filter Char.isDigit) := by
  have h := (C7_mask_e164_fallback "+12ab34567".toList).2.2
    "12ab34567".toList (by decide) (by decide)
  rw [h, if_neg (by decide)]

/-! ## C3: counter reconciliation -/

/-- Deduplication never lengthens the list. -/
theorem dedupAux_length_le {κ : Type} [DecidableEq κ] (key : WRow → κ) :
    ∀ (rows : List WRow) (seen : List κ),
      (dedupAux key seen rows).length ≤ rows.length := by
  intro rows
  induction rows with
  | nil => intro seen; simp [dedupAux]
  | cons r rest ih =>
      intro seen
      simp only [dedupAux]
      by_cases h : key r ∈ seen
      · rw [if_pos h]
        exact Nat.le_succ_of_le (ih seen)
      · rw [if_neg h]
        simpa using ih (key r :: seen)

/-- The dedup step never lengthens the list, in any mode. -/
theorem dedupStep_length_le (mode : DedupMode) (rows : List WRow) :
    (dedupStep mode rows).length ≤ rows.length := by
  cases mode <;> simp only [dedupStep] <;>
    first
      | exact le_refl _
      | exact dedupAux_length_le _ rows []

/-- C3 counterexample: with dedup mode `Aadhaar` and two rows carrying
the same Aadhaar value, the reported counters violate both claimed
equations: `totalRows = 2` but `processed + emptyRowsDropped = 1`, and
`processed = 1` but `distinctAfterDedup + duplicatesDropped = 2`. -/
theorem C3_counterexample :
    ((pipeline exPhoneNone DedupMode.aadhaar exRowsC3).2.total_rows ≠
      (pipeline exPhoneNone DedupMode.aadhaar exRowsC3).2.processed +
        (pipeline exPhoneNone DedupMode.aadhaar exRowsC3).2.dropped_all_empty) ∧
    ((pipeline exPhoneNone DedupMode.aadhaar exRowsC3).2.processed ≠
      (pipeline exPhoneNone DedupMode.aadhaar exRowsC3).2.distinct_after +
        (pipeline exPhoneNone DedupMode.aadhaar exRowsC3).2.dedup_applied) :=
  ⟨by decide, by decide⟩

/-- C3 (amended): the counters actually reconcile as
`totalRows == processedRows + emptyRowsDropped + duplicatesDropped` and
`processedRows == distinctAfterDedup`, because the source computes
`processed` after deduplication and reports `distinct_after` equal to
it. -/
theorem C3_counters_reconcile (phoneFn : List Char → List Char × Bool)
    (mode : DedupMode) (rows : List InRow) :
    ((pipeline phoneFn mode rows).2.total_rows =
      (pipeline phoneFn mode rows).2.processed +
        (pipeline phoneFn mode rows).2.dropped_all_empty +
        (pipeline phoneFn mode rows).2.dedup_applied) ∧
    ((pipeline phoneFn mode rows).2.processed =
      (pipeline phoneFn mode rows).2.distinct_after) := by
  have h1 : (rows.filter keepRow).length ≤ rows.length :=
    List.length_filter_le _ _
  have h2 : (dedupStep mode
        ((rows.filter keepRow).map (buildRow phoneFn))).length ≤
      ((rows.filter keepRow).map (buildRow phoneFn)).length :=
    dedupStep_length_le _ _
  have h3 : ((rows.filter keepRow).map (buildRow phoneFn)).length =
      (rows.filter keepRow).length := List.length_map _ _
  constructor
  · show rows.length =
      (dedupStep mode ((rows.filter keepRow).map (buildRow phoneFn))).length +
        (rows.length - (rows.filter keepRow).length) +
        (((rows.filter keepRow).map (buildRow phoneFn)).length -
          (dedupStep mode
            ((rows.filter keepRow).map (buildRow phoneFn))).length)
    omega
  · rfl

/-! ## C4: overall validity -/

/-- C4: with presence defined as a nonempty cleaned Aadhaar / canonical
mobile, overall validity is the conjunction of the present fields'
validities, and a row with neither field present is invalid. -/
theorem C4_overall_valid (aclean e164 : List Char) (av mv : Bool) :
    (aclean ≠ [] → e164 ≠ [] →
      overall_valid aclean e164 av mv = (av && mv)) ∧
    (aclean ≠ [] → e164 = [] → overall_valid aclean e164 av mv = av) ∧
    (aclean = [] → e164 ≠ [] → overall_valid aclean e164 av mv = mv) ∧
    (aclean = [] → e164 = [] → overall_valid aclean e164 av mv = false) := by
  refine ⟨?_, ?_, ?_, ?_⟩
  · intro h1 h2
    have ha : aclean.isEmpty = false := by simpa [List.isEmpty_iff] using h1
    have hm : e164.isEmpty = false := by simpa [List.isEmpty_iff] using h2
    simp [overall_valid, ha, hm]
  · intro h1 h2
    have ha : aclean.isEmpty = false := by simpa [List.isEmpty_iff] using h1
    simp [overall_valid, ha, h2]
  · intro h1 h2
    have hm : e164.isEmpty = false := by simpa [List.isEmpty_iff] using h2
    simp [overall_valid, h1, hm]
  · intro h1 h2
    simp [overall_valid, h1, h2]

/-- C4 witness: the both-present case at a concrete row. -/
theorem C4_witness : overall_valid ['1'] ['2'] true true = true := by
  have h := (C4_overall_valid ['1'] ['2'] true true).1 (by simp) (by simp)
  simpa using h

/-! ## C6 and C10: deduplication semantics -/

/-- `dedupAux` only consults the seen set through membership. -/
theorem dedupAux_congr_seen {κ : Type} [DecidableEq κ] (key : WRow → κ) :
    ∀ (rows : List WRow) (s1 s2 : List κ),
      (∀ x, x ∈ s1 ↔ x ∈ s2) →
      dedupAux key s1 rows = dedupAux key s2 rows := by
  intro rows
  induction rows with
  | nil => intro s1 s2 _; rfl
  | cons r rest ih =>
      intro s1 s2 h
      simp only [dedupAux]
      by_cases hr : key r ∈ s1
      · rw [if_pos hr, if_pos ((h _).mp hr)]
        exact ih s1 s2 h
      · rw [if_neg hr, if_neg (fun hc => hr ((h _).mpr hc))]
        rw [ih (key r :: s1) (key r :: s2) (by intro x; simp [h x])]

/-- Marking a key as seen is the same as pre-filtering it away. -/
theorem dedupAux_cons_seen {κ : Type} [DecidableEq κ] (key : WRow → κ) :
    ∀ (rows : List WRow) (seen : List κ) (k : κ),
      dedupAux key (k :: seen) rows =
        dedupAux key seen (rows.filter (fun x => !(key x == k))) := by
  intro rows
  induction rows with
  | nil => intro seen k; rfl
  | cons r rest ih =>
      intro seen k
      by_cases hk : key r = k
      · have hL : dedupAux key (k :: seen) (r :: rest) =
            dedupAux key (k :: seen) rest := by
          simp only [dedupAux]
          rw [if_pos (by simp [hk])]
        have hR : dedupAux key seen
              ((r :: rest).filter (fun x => !(key x == k))) =
            dedupAux key seen (rest.filter (fun x => !(key x == k))) := by
          rw [List.filter_cons, if_neg (by simp [hk])]
        rw [hL, hR, ih seen k]
      · by_cases hs : key r ∈ seen
        · have hL : dedupAux key (k :: seen) (r :: rest) =
              dedupAux key (k :: seen) rest := by
            simp only [dedupAux]
            rw [if_pos (by simp [hs])]
          have hR : dedupAux key seen
                ((r :: rest).filter (fun x => !(key x == k))) =
              dedupAux key seen
                (rest.filter (fun x => !(key x == k))) := by
            rw [List.filter_cons, if_pos (by simp [hk])]
            simp only [dedupAux]
            rw [if_pos hs]
          rw [hL, hR, ih seen k]
        · have hL : dedupAux key (k :: seen) (r :: rest) =
              r :: dedupAux key (key r :: k :: seen) rest := by
            simp only [dedupAux]
            rw [if_neg (by simp [List.mem_cons, hk, hs])]
          have hR : dedupAux key seen
                ((r :: rest).filter (fun x => !(key x == k))) =
              r :: dedupAux key (key r :: seen)
                (rest.filter (fun x => !(key x == k))) := by
            rw [List.filter_cons, if_pos (by simp [hk])]
            simp only [dedupAux]
            rw [if_neg hs]
          rw [hL, hR]
          rw [dedupAux_congr_seen key rest (key r :: k :: seen)
              (k :: key r :: seen)
              (by intro x; simp [List.mem_cons]; tauto)]
          rw [ih (key r :: seen) k]

/-- keep-first `drop_duplicates` equals the first-occurrence-wins
specification. -/
theorem dedupBy_eq_specKeep {κ : Type} [DecidableEq κ] (key : WRow → κ)
    (rows : List WRow) : dedupBy key rows = specKeep key rows := by
  have H : ∀ (n : Nat) (l : List WRow), l.length ≤ n →
      dedupBy key l = specKeep key l := by
    intro n
    induction n with
    | zero =>
        intro l h
        have : l = [] := List.length_eq_zero.mp (Nat.le_zero.mp h)
        subst this
        simp [dedupBy, dedupAux, specKeep]
    | succ n ih =>
        intro l h
        cases l with
        | nil => simp [dedupBy, dedupAux, specKeep]
        | cons r rest =>
            unfold dedupBy
            simp only [dedupAux]
            rw [if_neg (by simp)]
            rw [dedupAux_cons_seen key rest [] (key r)]
            have hlen : (rest.filter
                (fun x => !(key x == key r))).length ≤ n := by
              have := List.length_filter_le
                (fun x => !(key x == key r)) rest
              simp only [List.length_cons] at h
              omega
            have hrec := ih _ hlen
            unfold dedupBy at hrec
            rw [hrec]
            conv_rhs => rw [specKeep]
  exact H rows.length rows (le_refl _)

/-- The kept rows carrying any fixed key are the first input occurrence
of that key (empty seen set case of the invariant). -/
theorem dedupAux_filter_key {κ : Type} [DecidableEq κ] (key : WRow → κ) :
    ∀ (rows : List WRow) (seen : List κ) (k : κ),
      (dedupAux key seen rows).filter (fun r => key r == k) =
        (if k ∈ seen then []
         else (rows.filter (fun r => key r == k)).take 1) := by
  intro rows
  induction rows with
  | nil => intro seen k; simp [dedupAux]
  | cons r rest ih =>
      intro seen k
      by_cases hr : key r ∈ seen
      · have hL : dedupAux key seen (r :: rest) =
            dedupAux key seen rest := by
          simp only [dedupAux]
          rw [if_pos hr]
        rw [hL, ih seen k]
        by_cases hks : k ∈ seen
        · rw [if_pos hks, if_pos hks]
        · rw [if_neg hks, if_neg hks, List.filter_cons]
          rw [if_neg (by
            simp only [beq_iff_eq, Bool.not_eq_true]
            intro he; exact absurd (he ▸ hr) hks)]
      · have hL : dedupAux key seen (r :: rest) =
            r :: dedupAux key (key r :: seen) rest := by
          simp only [dedupAux]
          rw [if_neg hr]
        rw [hL]
        by_cases hk : key r = k
        · have hflt : (r :: dedupAux key (key r :: seen) rest).filter
              (fun x => key x == k) =
              r :: (dedupAux key (key r :: seen) rest).filter
                (fun x => key x == k) := by
            rw [List.filter_cons, if_pos (by simp [hk])]
          have h2 : (dedupAux key (key r :: seen) rest).filter
              (fun x => key x == k) = [] := by
            rw [ih (key r :: seen) k, if_pos (by simp [hk])]
          rw [hflt, h2]
          rw [if_neg (fun hc => hr (by rw [hk]; exact hc)),
              List.filter_cons, if_pos (by simp [hk])]
          simp
        · have hflt : (r :: dedupAux key (key r :: seen) rest).filter
              (fun x => key x == k) =
              (dedupAux key (key r :: seen) rest).filter
                (fun x => key x == k) := by
            rw [List.filter_cons, if_neg (by simp [hk])]
          rw [hflt, ih (key r :: seen) k]
          by_cases hks : k ∈ seen
          · rw [if_pos (by simp [List.mem_cons, hks]), if_pos hks]
          · rw [if_neg (by
                simp only [List.mem_cons, not_or]
                exact ⟨fun h => hk h.symm, hks⟩),
              if_neg hks, List.filter_cons, if_neg (by simp [hk])]

/-- C6: keep-first `drop_duplicates` equals the claim's
first-occurrence-wins specification for every key choice, and on the
Aadhaar-key batch `[A, B, A, C, B]` in mode `Aadhaar` the pipeline keeps
exactly the first occurrences `[A, B, C]` in original order, with
`duplicatesDropped == 2`. -/
theorem C6_dedup_first_occurrence :
    (∀ (κ : Type) (inst : DecidableEq κ) (key : WRow → κ)
        (rows : List WRow), dedupBy key rows = specKeep key rows) ∧
    ((pipeline exPhoneNone DedupMode.aadhaar exRowsC6).1.map
        (fun r => r.aclean) =
      ["1".toList, "2".toList, "3".toList]) ∧
    ((pipeline exPhoneNone DedupMode.aadhaar exRowsC6).2.dedup_applied
      = 2) := by
  refine ⟨?_, by decide, by decide⟩
  intro κ inst key rows
  exact dedupBy_eq_specKeep key rows

/-- C6 witness: the general part evaluated on a concrete duplicated
batch. -/
theorem C6_witness :
    dedupBy (fun r : WRow => r.aclean)
        ((pipeline exPhoneNone DedupMode.nodedup exRowsC6).1) =
      specKeep (fun r : WRow => r.aclean)
        ((pipeline exPhoneNone DedupMode.nodedup exRowsC6).1) :=
  (C6_dedup_first_occurrence).1 _ _ _ _

/-- C10: in mode `Aadhaar` every row with empty cleaned Aadhaar shares
the empty key, so the output keeps only the first such row of the input
order whatever the mobile values are; symmetrically for the empty
canonical mobile in mode `Mobile`; concretely, of two mobile-only rows
with distinct mobiles the second is dropped and counted. -/
theorem C10_empty_key_collapse :
    (∀ rows : List WRow,
      (dedupBy (fun r => r.aclean) rows).filter
          (fun r => decide (r.aclean = [])) =
        (rows.filter (fun r => decide (r.aclean = []))).take 1) ∧
    (∀ rows : List WRow,
      (dedupBy (fun r => r.e164) rows).filter
          (fun r => decide (r.e164 = [])) =
        (rows.filter (fun r => decide (r.e164 = []))).take 1) ∧
    ((pipeline exPhoneC10 DedupMode.aadhaar exRowsC10).1.map
        (fun r => r.e164) = ["+911".toList]) ∧
    ((pipeline exPhoneC10 DedupMode.aadhaar exRowsC10).2.dedup_applied
      = 1) := by
  refine ⟨?_, ?_, by decide, by decide⟩
  · intro rows
    have h := dedupAux_filter_key (fun r : WRow => r.aclean) rows []
      ([] : List Char)
    rw [if_neg (by simp)] at h
    exact h
  · intro rows
    have h := dedupAux_filter_key (fun r : WRow => r.e164) rows []
      ([] : List Char)
    rw [if_neg (by simp)] at h
    exact h

/-- C10 witness: the Aadhaar-mode part evaluated on the concrete
mobile-only batch. -/
theorem C10_witness :
    ((dedupBy (fun r : WRow => r.aclean)
        ((pipeline exPhoneC10 DedupMode.nodedup exRowsC10).1)).filter
          (fun r => decide (r.aclean = []))) =
      (((pipeline exPhoneC10 DedupMode.nodedup exRowsC10).1).filter
          (fun r => decide (r.aclean = []))).take 1 :=
  (C10_empty_key_collapse).1 _

/-! ## C9: equivalence of the scan and the run specification -/

/-- Digit characters have code points between 48 and 57. -/
theorem isDigit_toNat {c : Char} (h : c.isDigit = true) :
    48 ≤ c.toNat ∧ c.toNat ≤ 57 := by
  simp only [Char.isDigit, Bool.and_eq_true, decide_eq_true_eq] at h
  exact h

/-- On digit strings the character loop is the value loop on the digit
values. -/
theorem seqLoop_eq_seqLoopN (l : List Char) : ∀ (m ru rd : Nat) (p : Char),
    p.isDigit = true → (∀ c ∈ l, c.isDigit = true) →
    seqLoop m ru rd p l = seqLoopN m ru rd (charVal p) (l.map charVal) := by
  induction l with
  | nil => intro m ru rd p _ _; rfl
  | cons ch rest ih =>
      intro m ru rd p hp hl
      have hch : ch.isDigit = true := hl ch (by simp)
      obtain ⟨hp1, hp2⟩ := isDigit_toNat hp
      obtain ⟨hc1, hc2⟩ := isDigit_toNat hch
      have hup : ((ch.toNat : Int) - 48 = (p.toNat : Int) - 48 + 1) ↔
          (charVal ch = charVal p + 1) := by
        unfold charVal; omega
      have hdn : ((ch.toNat : Int) - 48 = (p.toNat : Int) - 48 - 1) ↔
          (charVal ch + 1 = charVal p) := by
        unfold charVal; omega
      simp only [seqLoop, List.map_cons, seqLoopN]
      rw [if_pos (by refine ⟨by omega, by omega, by omega, by omega⟩)]
      simp only [hup, hdn]
      by_cases ht : m ≤ (if charVal ch = charVal p + 1 then ru + 1 else 1) ∨
          m ≤ (if charVal ch + 1 = charVal p then rd + 1 else 1)
      · rw [if_pos ht, if_pos ht]
      · rw [if_neg ht, if_neg ht]
        exact ih m _ _ ch hch (fun c hc => hl c (by simp [hc]))

/-- Splitting the run specification at the head of the list. -/
theorem hasRunN_cons (v : Nat) (rest : List Nat) (m : Nat) (hm : 2 ≤ m) :
    hasRunN (v :: rest) m ↔
      ((∃ j, 1 ≤ j ∧ j ≤ rest.length ∧ m ≤ 1 + j ∧
          (List.Chain' upStep (v :: rest.take j) ∨
           List.Chain' downStep (v :: rest.take j))) ∨
        hasRunN rest m) := by
  have hm1 : m = (m - 1) + 1 := by omega
  constructor
  · rintro ⟨i, hi, hch⟩
    cases i with
    | zero =>
        left
        refine ⟨m - 1, by omega, ?_, by omega, ?_⟩
        · simp only [List.length_cons] at hi; omega
        · have htake : ((v :: rest).drop 0).take m =
              v :: rest.take (m - 1) := by
            rw [List.drop_zero, hm1, List.take_succ_cons, ← hm1]
          rw [htake] at hch
          exact hch
    | succ i' =>
        right
        refine ⟨i', ?_, ?_⟩
        · simp only [List.length_cons] at hi; omega
        · rw [List.drop_succ_cons] at hch
          exact hch
  · rintro (⟨j, hj1, hj2, hjm, hch⟩ | ⟨i, hi, hch⟩)
    · refine ⟨0, by simp; omega, ?_⟩
      have htake : ((v :: rest).drop 0).take m =
          (v :: rest.take j).take m := by
        rw [List.drop_zero]
        conv_lhs => rw [hm1]
        conv_rhs => rw [hm1]
        rw [List.take_succ_cons, List.take_succ_cons, List.take_take]
        have hmin : min (m - 1) j = m - 1 := by omega
        rw [hmin]
      rw [htake]
      rcases hch with hch | hch
      · exact Or.inl (List.Chain'.take hch m)
      · exact Or.inr (List.Chain'.take hch m)
    · refine ⟨i + 1, by simp; omega, ?_⟩
      rw [List.drop_succ_cons]
      exact hch

/-- The run specification is empty on the empty list for `m ≥ 2`. -/
theorem hasRunN_nil (m : Nat) (hm : 2 ≤ m) : ¬ hasRunN [] m := by
  rintro ⟨i, hi, _⟩
  simp only [List.length_nil] at hi
  omega

/-- Invariant characterization of the value loop: it answers `true` iff
either an initial segment extends the running streak past the threshold,
or a fresh run of length `m` occurs inside the remaining list. -/
theorem seqLoopN_iff (l : List Nat) : ∀ (m ru rd p : Nat),
    2 ≤ m → 1 ≤ ru → 1 ≤ rd →
    (seqLoopN m ru rd p l = true ↔
      ((∃ j, 1 ≤ j ∧ j ≤ l.length ∧
          ((m ≤ ru + j ∧ List.Chain' upStep (p :: l.take j)) ∨
           (m ≤ rd + j ∧ List.Chain' downStep (p :: l.take j)))) ∨
        hasRunN l m)) := by
  induction l with
  | nil =>
      intro m ru rd p hm hru hrd
      simp only [seqLoopN, List.length_nil, Bool.false_eq_true, false_iff]
      rintro (⟨j, hj1, hj2, _⟩ | hrun)
      · omega
      · exact hasRunN_nil m hm hrun
  | cons v rest ih =>
      intro m ru rd p hm hru hrd
      simp only [seqLoopN]
      set ru' := if v = p + 1 then ru + 1 else 1 with hru'
      set rd' := if v + 1 = p then rd + 1 else 1 with hrd'
      have hru'1 : 1 ≤ ru' := by rw [hru']; split <;> omega
      have hrd'1 : 1 ≤ rd' := by rw [hrd']; split <;> omega
      rw [hasRunN_cons v rest m hm]
      by_cases ht : m ≤ ru' ∨ m ≤ rd'
      · rw [if_pos ht]
        simp only [true_iff]
        left
        rcases ht with ht | ht
        · have hv : v = p + 1 := by
            by_contra hv
            rw [hru', if_neg hv] at ht
            omega
          rw [hru', if_pos hv] at ht
          refine ⟨1, le_refl 1, by simp, ?_⟩
          left
          refine ⟨by simpa using ht, ?_⟩
          rw [List.take_succ_cons, List.take_zero]
          exact List.Chain.cons hv List.Chain.nil
        · have hv : v + 1 = p := by
            by_contra hv
            rw [hrd', if_neg hv] at ht
            omega
          rw [hrd', if_pos hv] at ht
          refine ⟨1, le_refl 1, by simp, ?_⟩
          right
          refine ⟨by simpa using ht, ?_⟩
          rw [List.take_succ_cons, List.take_zero]
          exact List.Chain.cons hv.symm List.Chain.nil
      · rw [if_neg ht]
        push_neg at ht
        obtain ⟨htu, htd⟩ := ht
        rw [ih m ru' rd' v hm hru'1 hrd'1]
        constructor
        · rintro (⟨j', hj1, hj2, hcase⟩ | hrun)
          · rcases hcase with ⟨hmj, hch⟩ | ⟨hmj, hch⟩
            · by_cases hv : v = p + 1
              · left
                refine ⟨j' + 1, by omega, by simp; omega, ?_⟩
                left
                rw [hru', if_pos hv] at hmj
                refine ⟨by omega, ?_⟩
                rw [List.take_succ_cons, List.chain'_cons]
                exact ⟨hv, hch⟩
              · right; left
                rw [hru', if_neg hv] at hmj
                exact ⟨j', hj1, hj2, by omega, Or.inl hch⟩
            · by_cases hv : v + 1 = p
              · left
                refine ⟨j' + 1, by omega, by simp; omega, ?_⟩
                right
                rw [hrd', if_pos hv] at hmj
                refine ⟨by omega, ?_⟩
                rw [List.take_succ_cons, List.chain'_cons]
                exact ⟨hv.symm, hch⟩
              · right; left
                rw [hrd', if_neg hv] at hmj
                exact ⟨j', hj1, hj2, by omega, Or.inr hch⟩
          · right; right; exact hrun
        · rintro (⟨j, hj1, hj2, hcase⟩ | hBC)
          · obtain ⟨j', rfl⟩ : ∃ j', j = j' + 1 :=
              ⟨j - 1, by omega⟩
            rcases hcase with ⟨hmj, hch⟩ | ⟨hmj, hch⟩
            · rw [List.take_succ_cons, List.chain'_cons] at hch
              obtain ⟨hv, hch⟩ := hch
              have hv' : v = p + 1 := hv
              have hru'' : ru' = ru + 1 := by rw [hru', if_pos hv']
              cases Nat.eq_zero_or_pos j' with
              | inl h0 =>
                  subst h0
                  exfalso
                  rw [hru''] at htu
                  omega
              | inr hpos =>
                  left
                  refine ⟨j', by omega, by simp at hj2; omega, ?_⟩
                  left
                  exact ⟨by omega, hch⟩
            · rw [List.take_succ_cons, List.chain'_cons] at hch
              obtain ⟨hv, hch⟩ := hch
              have hv' : p = v + 1 := hv
              have hrd'' : rd' = rd + 1 := by
                rw [hrd', if_pos hv'.symm]
              cases Nat.eq_zero_or_pos j' with
              | inl h0 =>
                  subst h0
                  exfalso
                  rw [hrd''] at htd
                  omega
              | inr hpos =>
                  left
                  refine ⟨j', by omega, by simp at hj2; omega, ?_⟩
                  right
                  exact ⟨by omega, hch⟩
          · rcases hBC with ⟨j'', hj1, hj2, hjm, hch⟩ | hrun
            · left
              refine ⟨j'', hj1, hj2, ?_⟩
              rcases hch with hch | hch
              · exact Or.inl ⟨by omega, hch⟩
              · exact Or.inr ⟨by omega, hch⟩
            · right; exact hrun

/-- The scan of a digit string answers `true` iff the claim's run
specification holds on its digit values (for thresholds of at least
two). -/
theorem hasSeqRunScan_iff (seq : List Char) (m : Nat) (hm : 2 ≤ m)
    (hdig : ∀ c ∈ seq, c.isDigit = true) :
    (hasSeqRunScan seq m = true ↔ hasRunN (seq.map charVal) m) := by
  unfold hasSeqRunScan
  by_cases hlen : seq.length < m
  · rw [if_pos hlen]
    simp only [Bool.false_eq_true, false_iff]
    rintro ⟨i, hi, _⟩
    rw [List.length_map] at hi
    omega
  · rw [if_neg hlen]
    cases seq with
    | nil => simp at hlen; omega
    | cons c rest =>
        dsimp only
        rw [seqLoop_eq_seqLoopN rest m 1 1 c (hdig c (by simp))
            (fun d hd => hdig d (by simp [hd]))]
        rw [seqLoopN_iff (rest.map charVal) m 1 1 (charVal c) hm
            (le_refl 1) (le_refl 1)]
        rw [List.map_cons, hasRunN_cons (charVal c) (rest.map charVal) m hm]
        refine or_congr (exists_congr fun j => ?_) Iff.rfl
        constructor
        · rintro ⟨hj1, hj2, (⟨hmj, hch⟩ | ⟨hmj, hch⟩)⟩
          · exact ⟨hj1, by simpa using hj2, by omega, Or.inl hch⟩
          · exact ⟨hj1, by simpa using hj2, by omega, Or.inr hch⟩
        · rintro ⟨hj1, hj2, hjm, (hch | hch)⟩
          · exact ⟨hj1, by simpa using hj2, Or.inl ⟨by omega, hch⟩⟩
          · exact ⟨hj1, by simpa using hj2, Or.inr ⟨by omega, hch⟩⟩

/-- C9 counterexample: non-digit characters do not break runs — they are
stripped before the scan, so `"12x34"` contains a length-4 run spanning
the `'x'`; moreover at `minRun = 1` the single digit `"5"` carries a
length-1 run yet the scan answers `false`. -/
theorem C9_counterexample :
    has_sequential_digits "12x34".toList 4 = true ∧
    has_sequential_digits "5".toList 1 = false ∧
    hasRunN (("5".toList.filter Char.isDigit).map charVal) 1 :=
  ⟨by decide, by decide, ⟨0, by decide, Or.inl List.Chain.nil⟩⟩

/-- C9 (amended): for `minRun ≥ 2`, `has_sequential_digits s minRun` is
true iff the digit subsequence of `s` (non-digits removed, so runs span
removed characters) contains a strictly ascending or strictly descending
±1 run of length at least `minRun`. -/
theorem C9_has_sequential_digits (s : List Char) (m : Nat) (hm : 2 ≤ m) :
    (has_sequential_digits s m = true ↔
      hasRunN ((s.filter Char.isDigit).map charVal) m) := by
  unfold has_sequential_digits
  exact hasSeqRunScan_iff _ m hm (fun c hc => (List.mem_filter.mp hc).2)

/-- C9 witness: the amended theorem applied at `"123"` with threshold 3. -/
theorem C9_witness :
    hasRunN (("123".toList.filter Char.isDigit).map charVal) 3 :=
  (C9_has_sequential_digits "123".toList 3 (by decide)).mp (by decide)

end PII
